import Mathlib

/-!
Verification of the indexed block access and chronological line-reordering
subsystem (source module: src/input.rs, error kinds: src/error.rs).

The data structures SourceBlock, Stat and Chronology live in the crate's
index module, which is outside the provided sources; their shapes are
modelled from the spec's data-model section and from how src/input.rs reads
their fields.  All algorithms (the chronological line decoder, the block
sorter, the indexed-stream builder branching, block materialization and the
concatenating reader) are translated directly from src/input.rs.

Machine integers (u64 offsets, u32 sizes, usize cursors) are modelled as
Nat: the decoder only ever adds and compares these quantities and the
source converts them with TryInto before use, so no wrap-around semantics
are observable in the modelled code paths.
-/

/-- Bit width of one chronology bitmap word.  The source computes
k = 8 * size_of_val(bitmap[0]) where bitmap holds 64-bit words. -/
def wordBits : Nat := 64

/-- One entry of the chronology offsets array: the scan byte offset and the
jump cursor to restore at the start of the corresponding window
(spec data model: offsets is an ordered sequence of (bytes, jumps), one per
bitmap word). -/
structure ChronOffsetEntry where
  bytes : Nat
  jumps : Nat
deriving Repr, DecidableEq, Inhabited

/-- The chronological correction table of one block (spec data model:
bitmap of machine words, offsets one per word, jumps as absolute byte
offsets). -/
structure Chronology where
  bitmap : List Nat
  offsets : List ChronOffsetEntry
  jumps : List Nat
deriving Repr, DecidableEq, Inhabited

/-- Per-block statistics (spec data model).  Timestamps are modelled as Nat
and ts_min_max is the (minimum, maximum) pair used as the sort key. -/
structure Stat where
  lines_valid : Nat
  lines_invalid : Nat
  ts_min_max : Nat × Nat
deriving Repr, DecidableEq, Inhabited

/-- A source block of the index (spec data model; consumed by
src/input.rs through offset, size, stat and chronology). -/
structure SourceBlock where
  offset : Nat
  size : Nat
  stat : Stat
  chronology : Chronology
deriving Repr, DecidableEq, Inhabited

/-- The mutable iteration state of BlockLines (fields total, current, byte
and jump of struct BlockLines in src/input.rs). -/
structure LinesState where
  total : Nat
  current : Nat
  byte : Nat
  jump : Nat
deriving Repr, DecidableEq, Inhabited

/-- Result of one call of BlockLines::next: the iterator is finished, or a
slice-indexing operation would panic, or a line (start, length) is produced
together with the successor state. -/
inductive NextResult where
  | done
  | panic
  | line (start len : Nat) (s : LinesState)
deriving Repr, DecidableEq

/-- Length of the line starting at a given byte offset: one byte past the
next newline, or the rest of the buffer when no newline exists
(s.iter().position(x == newline).map_or(s.len(), i + 1) in
BlockLines::next). -/
def lineLen (buf : List Nat) (start : Nat) : Nat :=
  match (buf.drop start).findIdx? (fun x => x == 10) with
  | some i => i + 1
  | none => (buf.drop start).length

/-- Tail of BlockLines::next: slice the buffer from the chosen start offset
(panicking when the start is past the end of the buffer, as the Rust range
slice does), find the line end, and advance the state. -/
def emitLine (buf : List Nat) (s : LinesState) (start jmp : Nat) : NextResult :=
  if start > buf.length then .panic
  else
    .line start (lineLen buf start)
      { total := s.total, current := s.current + 1, byte := start + lineLen buf start, jump := jmp }

/-- BlockLines::next from src/input.rs.  When the bitmap is non-empty:
at a window boundary (current mod wordBits = 0) the scan byte offset and
jump cursor are reloaded from the window's offsets entry; when the current
line's bitmap bit is set the start offset is read from jumps at the jump
cursor and the cursor is incremented.  Out-of-bounds indexing of bitmap,
offsets or jumps is modelled as NextResult.panic. -/
def nextLine (c : Chronology) (buf : List Nat) (s : LinesState) : NextResult :=
  if s.current ≥ s.total then .done
  else if c.bitmap = [] then emitLine buf s s.byte s.jump
  else
    let n := s.current / wordBits
    let m := s.current % wordBits
    match c.bitmap[n]? with
    | none => .panic
    | some w =>
      match (if m = 0 then (c.offsets[n]?).map (fun o => (o.bytes, o.jumps))
             else some (s.byte, s.jump)) with
      | none => .panic
      | some (b0, j0) =>
        if w &&& (1 <<< m) ≠ 0 then
          match c.jumps[j0]? with
          | none => .panic
          | some v => emitLine buf s v (j0 + 1)
        else emitLine buf s b0 j0

/-- Run the decoder for at most fuel steps, collecting the produced
(start, length) line ranges; none models a panic. -/
def decodeSteps (c : Chronology) (buf : List Nat) : Nat → LinesState → Option (List (Nat × Nat) × LinesState)
  | 0, s => some ([], s)
  | fuel + 1, s =>
    match nextLine c buf s with
    | .done => some ([], s)
    | .panic => none
    | .line start len s1 =>
      (decodeSteps c buf fuel s1).map (fun r => ((start, len) :: r.1, r.2))

/-- The initial BlockLines state built by BlockLines::new:
total = lines_valid + lines_invalid, all cursors zero. -/
def initState (b : SourceBlock) : LinesState :=
  { total := b.stat.lines_valid + b.stat.lines_invalid, current := 0, byte := 0, jump := 0 }

/-- Decode all lines of a block from its materialized buffer.  The fuel
initState(b).total is exact: every produced line increments current by one
and the iterator stops at current = total. -/
def decodeAll (b : SourceBlock) (buf : List Nat) : Option (List (Nat × Nat) × LinesState) :=
  decodeSteps b.chronology buf (initState b).total (initState b)

/-- Helper: an index returned by findIdx? is within the list. -/
theorem findIdx?_some_lt (p : Nat → Bool) : ∀ (l : List Nat) (i : Nat), List.findIdx? p l = some i → i < l.length := by
  intro l
  induction l with
  | nil => intro i h; simp [List.findIdx?_nil] at h
  | cons a t ih =>
    intro i h
    rw [List.findIdx?_cons] at h
    by_cases hp : p a
    · simp [hp] at h; simp; omega
    · simp [hp] at h
      obtain ⟨j, hj, hji⟩ := h
      have := ih j hj
      simp; omega

/-- A line starting inside the buffer has positive length. -/
theorem lineLen_pos (buf : List Nat) (pos : Nat) (h : pos < buf.length) : 0 < lineLen buf pos := by
  unfold lineLen
  cases hfi : (buf.drop pos).findIdx? (fun x => x == 10) with
  | some i => simp
  | none => simp [List.length_drop]; omega

/-- A line never extends past the end of the buffer. -/
theorem lineLen_le (buf : List Nat) (pos : Nat) : lineLen buf pos ≤ buf.length - pos := by
  unfold lineLen
  cases hfi : (buf.drop pos).findIdx? (fun x => x == 10) with
  | some i =>
    have := findIdx?_some_lt _ _ _ hfi
    simp [List.length_drop] at this ⊢
    omega
  | none => simp [List.length_drop]

/-- Fuel-driven worker for the naive newline split; the fuel
buf.length - pos is always sufficient because every line is non-empty. -/
def naiveSplitGo (buf : List Nat) : Nat → Nat → List (Nat × Nat)
  | 0, _ => []
  | fuel + 1, pos =>
    if pos < buf.length then
      (pos, lineLen buf pos) :: naiveSplitGo buf fuel (pos + lineLen buf pos)
    else []

/-- Naive newline split of a buffer starting at a byte position: the list
of (start, length) ranges obtained by pure sequential scanning. -/
def naiveSplitFrom (buf : List Nat) (pos : Nat) : List (Nat × Nat) :=
  naiveSplitGo buf (buf.length - pos) pos

/-- The worker does not depend on the fuel once the fuel is sufficient. -/
theorem naiveSplitGo_fuel (buf : List Nat) :
    ∀ fuel fuel' pos, buf.length - pos ≤ fuel → buf.length - pos ≤ fuel' →
      naiveSplitGo buf fuel pos = naiveSplitGo buf fuel' pos := by
  intro fuel
  induction fuel with
  | zero =>
    intro fuel' pos h h'
    cases fuel' with
    | zero => rfl
    | succ f =>
      simp only [naiveSplitGo]
      have : ¬ pos < buf.length := by omega
      simp [this]
  | succ f ih =>
    intro fuel' pos h h'
    cases fuel' with
    | zero =>
      simp only [naiveSplitGo]
      have : ¬ pos < buf.length := by omega
      simp [this]
    | succ f' =>
      simp only [naiveSplitGo]
      by_cases hp : pos < buf.length
      · simp [hp]
        have hl := lineLen_pos buf pos hp
        exact ih f' (pos + lineLen buf pos) (by omega) (by omega)
      · simp [hp]

/-- Unrolling equation of the naive split. -/
theorem naiveSplitFrom_eq (buf : List Nat) (pos : Nat) :
    naiveSplitFrom buf pos =
      if pos < buf.length then
        (pos, lineLen buf pos) :: naiveSplitFrom buf (pos + lineLen buf pos)
      else [] := by
  unfold naiveSplitFrom
  by_cases hp : pos < buf.length
  · have h1 : buf.length - pos = (buf.length - pos - 1) + 1 := by omega
    rw [h1]
    simp only [naiveSplitGo, hp, if_true]
    have hl := lineLen_pos buf pos hp
    have := naiveSplitGo_fuel buf (buf.length - pos - 1) (buf.length - (pos + lineLen buf pos))
      (pos + lineLen buf pos) (by omega) (by omega)
    rw [this]
  · have h1 : buf.length - pos = 0 := by omega
    rw [h1]
    simp [naiveSplitGo, hp]

-- sanity checks on concrete data (line1 and line2 text, two lines)
example : naiveSplitFrom [97, 10, 98, 10] 0 = [(0, 2), (2, 2)] := by decide

example :
    decodeAll
      { offset := 0, size := 4, stat := { lines_valid := 2, lines_invalid := 0, ts_min_max := (0, 0) },
        chronology := { bitmap := [], offsets := [], jumps := [] } }
      [97, 10, 98, 10] =
    some ([(0, 2), (2, 2)], { total := 2, current := 2, byte := 4, jump := 0 }) := by decide

example :
    decodeAll
      { offset := 0, size := 4, stat := { lines_valid := 2, lines_invalid := 0, ts_min_max := (0, 0) },
        chronology := { bitmap := [1], offsets := [{ bytes := 0, jumps := 0 }], jumps := [2] } }
      [97, 10, 98, 10] =
    some ([(2, 2), (4, 0)], { total := 2, current := 2, byte := 4, jump := 1 }) := by decide

/-- An exhausted decoder state yields done. -/
theorem nextLine_done_of_le (c : Chronology) (buf : List Nat) (s : LinesState)
    (h : s.total ≤ s.current) : nextLine c buf s = .done := by
  unfold nextLine
  simp [show s.current ≥ s.total from h]


/-- emitLine never reports an exhausted iterator. -/
theorem emitLine_done (buf : List Nat) (s : LinesState) (start jmp : Nat) :
    emitLine buf s start jmp ≠ .done := by
  unfold emitLine
  split <;> simp

theorem emitLine_line (buf : List Nat) (s : LinesState) (start jmp st l : Nat) (s1 : LinesState)
    (h : emitLine buf s start jmp = .line st l s1) :
    st = start ∧ l = lineLen buf st ∧ st ≤ buf.length ∧
      s1 = { total := s.total, current := s.current + 1, byte := st + l, jump := jmp } := by
  unfold emitLine at h
  split at h
  · simp at h
  · simp only [NextResult.line.injEq] at h
    obtain ⟨rfl, rfl, rfl⟩ := h
    refine ⟨rfl, rfl, by omega, rfl⟩

theorem nextLine_shape (c : Chronology) (buf : List Nat) (s : LinesState)
    (h' : s.current < s.total) :
    nextLine c buf s = .panic ∨
      ∃ start jmp, nextLine c buf s = emitLine buf s start jmp := by
  unfold nextLine
  simp only [show ¬ s.current ≥ s.total from by omega, if_false]
  by_cases hb : c.bitmap = []
  · simp only [hb, if_true]
    exact Or.inr ⟨s.byte, s.jump, rfl⟩
  · simp only [hb, if_false]
    cases hw : c.bitmap[s.current / wordBits]? with
    | none => exact Or.inl rfl
    | some w =>
      dsimp only
      cases hr : (if s.current % wordBits = 0 then (c.offsets[s.current / wordBits]?).map (fun o => (o.bytes, o.jumps))
             else some (s.byte, s.jump)) with
      | none => exact Or.inl rfl
      | some bj =>
        obtain ⟨b0, j0⟩ := bj
        dsimp only
        by_cases hbit : w &&& (1 <<< (s.current % wordBits)) ≠ 0
        · rw [if_pos hbit]
          cases hj : c.jumps[j0]? with
          | none => exact Or.inl rfl
          | some v => exact Or.inr ⟨v, j0 + 1, rfl⟩
        · rw [if_neg hbit]
          exact Or.inr ⟨b0, j0, rfl⟩

theorem nextLine_done_le (c : Chronology) (buf : List Nat) (s : LinesState)
    (h : nextLine c buf s = .done) : s.total ≤ s.current := by
  by_contra h'
  rcases nextLine_shape c buf s (by omega) with hp | ⟨start, jmp, he⟩
  · rw [hp] at h; simp at h
  · rw [he] at h; exact emitLine_done buf s start jmp h

theorem nextLine_line (c : Chronology) (buf : List Nat) (s : LinesState) (st l : Nat) (s1 : LinesState)
    (h : nextLine c buf s = .line st l s1) :
    s1.total = s.total ∧ s1.current = s.current + 1 ∧ l = lineLen buf st ∧
      s1.byte = st + l ∧ st ≤ buf.length := by
  have h' : s.current < s.total := by
    by_contra hc
    rw [nextLine_done_of_le c buf s (by omega)] at h
    simp at h
  rcases nextLine_shape c buf s h' with hp | ⟨start, jmp, he⟩
  · rw [hp] at h; simp at h
  · rw [he] at h
    obtain ⟨rfl, hl, hle, rfl⟩ := emitLine_line buf s start jmp st l s1 h
    exact ⟨rfl, rfl, hl, rfl, hle⟩

/-- State bookkeeping of a fuel-bounded decode run: the final state's line
counter advances by the number of produced lines, and a run that stops
before exhausting the fuel has reached current = total. -/
theorem decodeSteps_spec (c : Chronology) (buf : List Nat) :
    ∀ fuel (s : LinesState) ls sf, decodeSteps c buf fuel s = some (ls, sf) →
      sf.total = s.total ∧ sf.current = s.current + ls.length ∧ ls.length ≤ fuel ∧
        (ls.length = fuel ∨ sf.total ≤ sf.current) := by
  intro fuel
  induction fuel with
  | zero =>
    intro s ls sf h
    simp only [decodeSteps, Option.some.injEq, Prod.mk.injEq] at h
    obtain ⟨rfl, rfl⟩ := h
    simp
  | succ f ih =>
    intro s ls sf h
    simp only [decodeSteps] at h
    cases hn : nextLine c buf s with
    | done =>
      rw [hn] at h
      simp only [Option.some.injEq, Prod.mk.injEq] at h
      obtain ⟨rfl, rfl⟩ := h
      have := nextLine_done_le c buf s hn
      exact ⟨rfl, by simp, by simp, Or.inr (by omega)⟩
    | panic => rw [hn] at h; simp at h
    | line st l s1 =>
      rw [hn] at h
      dsimp only at h
      cases hd : decodeSteps c buf f s1 with
      | none => rw [hd] at h; simp at h
      | some r =>
        obtain ⟨ls1, sf1⟩ := r
        rw [hd] at h
        simp at h
        obtain ⟨rfl, rfl⟩ := h
        have hstep := nextLine_line c buf s st l s1 hn
        have hrec := ih s1 ls1 sf1 hd
        refine ⟨by omega, by simp; omega, by simp; omega, ?_⟩
        rcases hrec.2.2.2 with hh | hh
        · exact Or.inl (by simp; omega)
        · exact Or.inr (by omega)

/-- C3: for every block, a completed run of the line decoder produces
exactly lines_valid + lines_invalid lines, and once that count has been
produced the iterator is exhausted: every further call of next returns
none. -/
theorem blockLines_count (b : SourceBlock) (buf : List Nat) (ls : List (Nat × Nat)) (sf : LinesState)
    (h : decodeAll b buf = some (ls, sf)) :
    ls.length = b.stat.lines_valid + b.stat.lines_invalid ∧
      nextLine b.chronology buf sf = .done := by
  have hs := decodeSteps_spec b.chronology buf (initState b).total (initState b) ls sf h
  have htot : (initState b).total = b.stat.lines_valid + b.stat.lines_invalid := rfl
  have hcur : (initState b).current = 0 := rfl
  obtain ⟨h1, h2, h3, h4⟩ := hs
  have hlen : ls.length = b.stat.lines_valid + b.stat.lines_invalid := by
    rcases h4 with hh | hh
    · omega
    · omega
  exact ⟨hlen, nextLine_done_of_le _ _ _ (by omega)⟩

def sampleBuf : List Nat := [97, 10, 98, 10]

def sampleSeqBlock : SourceBlock :=
  { offset := 0, size := 4, stat := { lines_valid := 2, lines_invalid := 0, ts_min_max := (0, 0) },
    chronology := { bitmap := [], offsets := [], jumps := [] } }

/-- Witness for C3 at a concrete two-line block. -/
theorem blockLines_count_witness :
    ([(0, 2), (2, 2)] : List (Nat × Nat)).length =
        sampleSeqBlock.stat.lines_valid + sampleSeqBlock.stat.lines_invalid ∧
      nextLine sampleSeqBlock.chronology sampleBuf { total := 2, current := 2, byte := 4, jump := 0 } = .done :=
  blockLines_count sampleSeqBlock sampleBuf [(0, 2), (2, 2)]
    { total := 2, current := 2, byte := 4, jump := 0 } (by decide)

/-- emitLine produces a line whenever the start offset is inside the buffer. -/
theorem emitLine_eq_line (buf : List Nat) (s : LinesState) (start jmp : Nat)
    (h : start ≤ buf.length) :
    emitLine buf s start jmp = .line start (lineLen buf start)
      { total := s.total, current := s.current + 1, byte := start + lineLen buf start, jump := jmp } := by
  unfold emitLine
  rw [if_neg (by omega)]

theorem nextLine_seq (c : Chronology) (buf : List Nat) (s : LinesState)
    (hc : c.bitmap = []) (h' : s.current < s.total) :
    nextLine c buf s = emitLine buf s s.byte s.jump := by
  unfold nextLine
  simp [hc, show ¬ s.current ≥ s.total from by omega]

theorem naiveSplitFrom_nil_iff (buf : List Nat) (pos : Nat) :
    naiveSplitFrom buf pos = [] ↔ ¬ pos < buf.length := by
  rw [naiveSplitFrom_eq]
  by_cases h : pos < buf.length <;> simp [h]

theorem decodeSteps_seq (c : Chronology) (buf : List Nat) (hc : c.bitmap = []) :
    ∀ fuel total cur pos jmp, cur ≤ total → pos ≤ buf.length →
      fuel = total - cur → total - cur = (naiveSplitFrom buf pos).length →
      decodeSteps c buf fuel { total := total, current := cur, byte := pos, jump := jmp } =
        some (naiveSplitFrom buf pos,
          { total := total, current := total, byte := buf.length, jump := jmp }) := by
  intro fuel
  induction fuel with
  | zero =>
    intro total cur pos jmp hct hpl hf hn
    have hcur : cur = total := by omega
    have hnil : naiveSplitFrom buf pos = [] := by
      have : (naiveSplitFrom buf pos).length = 0 := by omega
      exact List.length_eq_zero.mp this
    have hpos : pos = buf.length := by
      have := (naiveSplitFrom_nil_iff buf pos).mp hnil
      omega
    subst hcur hpos
    simp [decodeSteps, hnil]
  | succ f ih =>
    intro total cur pos jmp hct hpl hf hn
    have hcur : cur < total := by omega
    have hpos : pos < buf.length := by
      by_contra hp
      have : naiveSplitFrom buf pos = [] := (naiveSplitFrom_nil_iff buf pos).mpr hp
      rw [this] at hn
      simp at hn
      omega
    have hsplit := naiveSplitFrom_eq buf pos
    rw [if_pos hpos] at hsplit
    have hlen : total - (cur + 1) = (naiveSplitFrom buf (pos + lineLen buf pos)).length := by
      rw [hsplit] at hn
      simp at hn
      omega
    have hnext : nextLine c buf { total := total, current := cur, byte := pos, jump := jmp } =
        .line pos (lineLen buf pos)
          { total := total, current := cur + 1, byte := pos + lineLen buf pos, jump := jmp } := by
      rw [nextLine_seq c buf _ hc (by simpa using hcur)]
      exact emitLine_eq_line buf _ pos jmp (by omega)
    simp only [decodeSteps, hnext]
    have hrec := ih total (cur + 1) (pos + lineLen buf pos) jmp (by omega)
      (by have := lineLen_le buf pos; omega) (by omega) hlen
    rw [hrec]
    simp [hsplit]

def cexBlock : SourceBlock :=
  { offset := 0, size := 6, stat := { lines_valid := 2, lines_invalid := 0, ts_min_max := (0, 0) },
    chronology := { bitmap := [0], offsets := [{ bytes := 3, jumps := 0 }], jumps := [] } }

def cexBuf : List Nat := [97, 98, 10, 99, 100, 10]

/-- C2 counterexample: a block whose chronology bitmap is all-zero (a single
zero word) but non-empty, for which decoding does not yield the naive
newline split: the window reset still fires and re-reads the scan offset
from the offsets table. -/
theorem decode_allzero_ne_naive :
    (∀ w ∈ cexBlock.chronology.bitmap, w = 0) ∧
      (decodeAll cexBlock cexBuf).map (fun r => r.1) ≠ some (naiveSplitFrom cexBuf 0) := by
  decide

/-- C2 (amended): for every block whose chronology bitmap is empty and whose
declared line count equals the number of naive newline-split lines, decoding
yields exactly the naive newline split in pure byte-offset order. -/
theorem decode_empty_bitmap_eq_naive (b : SourceBlock) (buf : List Nat)
    (hb : b.chronology.bitmap = [])
    (ht : b.stat.lines_valid + b.stat.lines_invalid = (naiveSplitFrom buf 0).length) :
    decodeAll b buf = some (naiveSplitFrom buf 0,
      { total := b.stat.lines_valid + b.stat.lines_invalid,
        current := b.stat.lines_valid + b.stat.lines_invalid,
        byte := buf.length, jump := 0 }) := by
  unfold decodeAll initState
  dsimp only
  exact decodeSteps_seq b.chronology buf hb (b.stat.lines_valid + b.stat.lines_invalid)
    (b.stat.lines_valid + b.stat.lines_invalid) 0 0 0 (by omega) (by omega) (by omega)
    (by simpa using ht)

/-- Witness for the amended C2 at a concrete two-line block. -/
theorem decode_empty_bitmap_eq_naive_witness :
    decodeAll sampleSeqBlock sampleBuf = some (naiveSplitFrom sampleBuf 0,
      { total := sampleSeqBlock.stat.lines_valid + sampleSeqBlock.stat.lines_invalid,
        current := sampleSeqBlock.stat.lines_valid + sampleSeqBlock.stat.lines_invalid,
        byte := sampleBuf.length, jump := 0 }) :=
  decode_empty_bitmap_eq_naive sampleSeqBlock sampleBuf (by decide) (by decide)

/-- C1: for every block with a non-empty chronology bitmap, a decode step at
a line index that is a multiple of the bitmap word bit-width reloads the
scan byte offset and the jump cursor from that window's offsets entry, and
a decode step at a line whose bitmap bit is set takes the line start from
jumps at the current jump cursor and increments the cursor by exactly one
(so consecutive consumptions use strictly increasing jump indexes), while a
clear bit away from a window boundary leaves the cursor unchanged. -/
theorem blockLines_window_reset_and_jumps (c : Chronology) (buf : List Nat) (s : LinesState)
    (w : Nat) (o : ChronOffsetEntry)
    (hcur : s.current < s.total)
    (hw : c.bitmap[s.current / wordBits]? = some w)
    (ho : c.offsets[s.current / wordBits]? = some o) :
    (s.current % wordBits = 0 → w &&& (1 <<< (s.current % wordBits)) = 0 → o.bytes ≤ buf.length →
      nextLine c buf s = .line o.bytes (lineLen buf o.bytes)
        { total := s.total, current := s.current + 1,
          byte := o.bytes + lineLen buf o.bytes, jump := o.jumps }) ∧
    (s.current % wordBits = 0 → w &&& (1 <<< (s.current % wordBits)) ≠ 0 →
      ∀ v, c.jumps[o.jumps]? = some v → v ≤ buf.length →
      nextLine c buf s = .line v (lineLen buf v)
        { total := s.total, current := s.current + 1,
          byte := v + lineLen buf v, jump := o.jumps + 1 }) ∧
    (s.current % wordBits ≠ 0 → w &&& (1 <<< (s.current % wordBits)) ≠ 0 →
      ∀ v, c.jumps[s.jump]? = some v → v ≤ buf.length →
      nextLine c buf s = .line v (lineLen buf v)
        { total := s.total, current := s.current + 1,
          byte := v + lineLen buf v, jump := s.jump + 1 }) ∧
    (s.current % wordBits ≠ 0 → w &&& (1 <<< (s.current % wordBits)) = 0 → s.byte ≤ buf.length →
      nextLine c buf s = .line s.byte (lineLen buf s.byte)
        { total := s.total, current := s.current + 1,
          byte := s.byte + lineLen buf s.byte, jump := s.jump }) := by
  have hbm : ¬ c.bitmap = [] := by
    intro h
    rw [h] at hw
    simp at hw
  refine ⟨?_, ?_, ?_, ?_⟩
  · intro hm hbit hob
    unfold nextLine
    simp only [show ¬ s.current ≥ s.total from by omega, if_false, hbm]
    rw [hw]
    dsimp only
    rw [if_pos hm, ho]
    simp only [Option.map_some']
    rw [if_neg (by simp [hbit])]
    exact emitLine_eq_line buf s o.bytes o.jumps hob
  · intro hm hbit v hv hvb
    unfold nextLine
    simp only [show ¬ s.current ≥ s.total from by omega, if_false, hbm]
    rw [hw]
    dsimp only
    rw [if_pos hm, ho]
    simp only [Option.map_some']
    rw [if_pos hbit, hv]
    exact emitLine_eq_line buf s v (o.jumps + 1) hvb
  · intro hm hbit v hv hvb
    unfold nextLine
    simp only [show ¬ s.current ≥ s.total from by omega, if_false, hbm]
    rw [hw]
    dsimp only
    rw [if_neg hm]
    dsimp only
    rw [if_pos hbit, hv]
    exact emitLine_eq_line buf s v (s.jump + 1) hvb
  · intro hm hbit
    unfold nextLine
    simp only [show ¬ s.current ≥ s.total from by omega, if_false, hbm]
    rw [hw]
    dsimp only
    rw [if_neg hm]
    dsimp only
    rw [if_neg (by simp [hbit])]
    exact emitLine_eq_line buf s s.byte s.jump

/-- Witness for C1: a concrete block in which line 1 of window 0 has its
bitmap bit set, so its start is fetched from jumps at cursor 0 and the
cursor advances to 1. -/
theorem blockLines_window_reset_and_jumps_witness :
    nextLine { bitmap := [2], offsets := [{ bytes := 0, jumps := 0 }], jumps := [2] } sampleBuf
        { total := 2, current := 1, byte := 2, jump := 0 } =
      .line 2 (lineLen sampleBuf 2)
        { total := 2, current := 1 + 1, byte := 2 + lineLen sampleBuf 2, jump := 0 + 1 } :=
  (blockLines_window_reset_and_jumps
      { bitmap := [2], offsets := [{ bytes := 0, jumps := 0 }], jumps := [2] } sampleBuf
      { total := 2, current := 1, byte := 2, jump := 0 } 2 { bytes := 0, jumps := 0 }
      (by decide) (by decide) (by decide)).2.2.1 (by decide) (by decide) 2 (by decide) (by decide)

/-- Number of set bits of a bitmap word at positions from m up to the word
bit width; the number of jump consumptions the rest of a window can make. -/
def countFrom (w m : Nat) : Nat :=
  (List.range' m (wordBits - m)).countP (fun i => w &&& (1 <<< i) != 0)

theorem countFrom_step (w m : Nat) (h : m < wordBits) :
    countFrom w m = (if w &&& (1 <<< m) ≠ 0 then 1 else 0) + countFrom w (m + 1) := by
  unfold countFrom
  have h1 : wordBits - m = (wordBits - (m + 1)) + 1 := by omega
  rw [h1, List.range'_succ, List.countP_cons]
  by_cases hbit : w &&& (1 <<< m) ≠ 0 <;> simp [hbit] <;> omega

theorem getElem?_eq_some_getD {α : Type} (l : List α) (n : Nat) (d : α) (h : n < l.length) :
    l[n]? = some (l.getD n d) := by
  rw [List.getElem?_eq_getElem h, List.getD_eq_getElem l d h]

theorem getD_mem {α : Type} (l : List α) (n : Nat) (d : α) (h : n < l.length) :
    l.getD n d ∈ l := by
  rw [List.getD_eq_getElem l d h]
  exact List.getElem_mem h

theorem nextLine_bitmap_ne_nil {c : Chronology} {s : LinesState} {w : Nat}
    (hw : c.bitmap[s.current / wordBits]? = some w) : ¬ c.bitmap = [] := by
  intro h
  rw [h] at hw
  simp at hw

theorem nextLine_window_clear (c : Chronology) (buf : List Nat) (s : LinesState)
    (w : Nat) (o : ChronOffsetEntry)
    (hcur : s.current < s.total)
    (hw : c.bitmap[s.current / wordBits]? = some w)
    (ho : c.offsets[s.current / wordBits]? = some o)
    (hm : s.current % wordBits = 0)
    (hbit : w &&& (1 <<< (s.current % wordBits)) = 0) :
    nextLine c buf s = emitLine buf s o.bytes o.jumps := by
  unfold nextLine
  simp only [show ¬ s.current ≥ s.total from by omega, if_false, nextLine_bitmap_ne_nil hw]
  rw [hw]
  dsimp only
  rw [if_pos hm, ho]
  simp only [Option.map_some']
  rw [if_neg (by simp [hbit])]

theorem nextLine_window_set (c : Chronology) (buf : List Nat) (s : LinesState)
    (w : Nat) (o : ChronOffsetEntry) (v : Nat)
    (hcur : s.current < s.total)
    (hw : c.bitmap[s.current / wordBits]? = some w)
    (ho : c.offsets[s.current / wordBits]? = some o)
    (hm : s.current % wordBits = 0)
    (hbit : w &&& (1 <<< (s.current % wordBits)) ≠ 0)
    (hv : c.jumps[o.jumps]? = some v) :
    nextLine c buf s = emitLine buf s v (o.jumps + 1) := by
  unfold nextLine
  simp only [show ¬ s.current ≥ s.total from by omega, if_false, nextLine_bitmap_ne_nil hw]
  rw [hw]
  dsimp only
  rw [if_pos hm, ho]
  simp only [Option.map_some']
  rw [if_pos hbit, hv]

theorem nextLine_mid_set (c : Chronology) (buf : List Nat) (s : LinesState)
    (w : Nat) (v : Nat)
    (hcur : s.current < s.total)
    (hw : c.bitmap[s.current / wordBits]? = some w)
    (hm : s.current % wordBits ≠ 0)
    (hbit : w &&& (1 <<< (s.current % wordBits)) ≠ 0)
    (hv : c.jumps[s.jump]? = some v) :
    nextLine c buf s = emitLine buf s v (s.jump + 1) := by
  unfold nextLine
  simp only [show ¬ s.current ≥ s.total from by omega, if_false, nextLine_bitmap_ne_nil hw]
  rw [hw]
  dsimp only
  rw [if_neg hm]
  dsimp only
  rw [if_pos hbit, hv]

theorem nextLine_mid_clear (c : Chronology) (buf : List Nat) (s : LinesState)
    (w : Nat)
    (hcur : s.current < s.total)
    (hw : c.bitmap[s.current / wordBits]? = some w)
    (hm : s.current % wordBits ≠ 0)
    (hbit : w &&& (1 <<< (s.current % wordBits)) = 0) :
    nextLine c buf s = emitLine buf s s.byte s.jump := by
  unfold nextLine
  simp only [show ¬ s.current ≥ s.total from by omega, if_false, nextLine_bitmap_ne_nil hw]
  rw [hw]
  dsimp only
  rw [if_neg hm]
  dsimp only
  rw [if_neg (by simp [hbit])]

/-- Decoder state invariant for panic-freedom: the scan byte offset stays
inside the buffer, and mid-window the jump cursor plus the number of set
bits remaining in the current window fits inside the jumps array. -/
def DecInv (c : Chronology) (buf : List Nat) (s : LinesState) : Prop :=
  s.byte ≤ buf.length ∧
  (c.bitmap ≠ [] → s.current % wordBits ≠ 0 → s.current < s.total →
    s.jump + countFrom (c.bitmap.getD (s.current / wordBits) 0) (s.current % wordBits) ≤ c.jumps.length)

theorem decodeSteps_no_panic (c : Chronology) (buf : List Nat)
    (hoff : c.offsets.length = c.bitmap.length)
    (hjb : ∀ n, n < c.bitmap.length →
      (c.offsets.getD n default).jumps + countFrom (c.bitmap.getD n 0) 0 ≤ c.jumps.length)
    (hjv : ∀ v ∈ c.jumps, v ≤ buf.length)
    (hov : ∀ o ∈ c.offsets, o.bytes ≤ buf.length) :
    ∀ fuel (s : LinesState), (c.bitmap = [] ∨ s.total ≤ wordBits * c.bitmap.length) →
      DecInv c buf s → (decodeSteps c buf fuel s).isSome := by
  intro fuel
  induction fuel with
  | zero => intro s _ _; simp [decodeSteps]
  | succ f ih =>
    intro s htot hinv
    by_cases hc : s.current ≥ s.total
    · simp [decodeSteps, nextLine_done_of_le c buf s (by omega)]
    · have hcur : s.current < s.total := by omega
      have hmlt : s.current % wordBits < wordBits := Nat.mod_lt _ (by norm_num [wordBits])
      rcases htot with hb | htot
      · -- empty bitmap: pure sequential step
        have hnext : nextLine c buf s = emitLine buf s s.byte s.jump := nextLine_seq c buf s hb hcur
        have hline := emitLine_eq_line buf s s.byte s.jump hinv.1
        simp only [decodeSteps, hnext, hline]
        have hinv1 : DecInv c buf { total := s.total, current := s.current + 1, byte := s.byte + lineLen buf s.byte, jump := s.jump } := by
          constructor
          · have := lineLen_le buf s.byte
            have := hinv.1
            dsimp only
            omega
          · intro hbne
            exact absurd hb hbne
        simpa using ih _ (Or.inl hb) hinv1
      · -- non-empty bitmap
        have hb : c.bitmap ≠ [] := by
          intro h
          rw [h] at htot
          simp [wordBits] at htot
          omega
        have hn : s.current / wordBits < c.bitmap.length := by
          have h64 : (0:Nat) < wordBits := by norm_num [wordBits]
          rw [Nat.div_lt_iff_lt_mul h64]
          calc s.current < s.total := hcur
            _ ≤ wordBits * c.bitmap.length := htot
            _ = c.bitmap.length * wordBits := by ring
        have hw : c.bitmap[s.current / wordBits]? = some (c.bitmap.getD (s.current / wordBits) 0) :=
          getElem?_eq_some_getD _ _ _ hn
        have hno : s.current / wordBits < c.offsets.length := by omega
        have ho : c.offsets[s.current / wordBits]? =
            some (c.offsets.getD (s.current / wordBits) default) :=
          getElem?_eq_some_getD _ _ _ hno
        have hcstep := countFrom_step (c.bitmap.getD (s.current / wordBits) 0) (s.current % wordBits) hmlt
        have hdiv1 : (s.current + 1) % wordBits ≠ 0 → (s.current + 1) / wordBits = s.current / wordBits ∧ (s.current + 1) % wordBits = s.current % wordBits + 1 := by
          simp only [wordBits]
          omega
        by_cases hm : s.current % wordBits = 0
        · -- window boundary: cursor and byte offset reset from the offsets entry
          have hbud := hjb _ hn
          by_cases hbit : (c.bitmap.getD (s.current / wordBits) 0) &&& (1 <<< (s.current % wordBits)) ≠ 0
          · -- exception line at window start
            have hcpos : countFrom (c.bitmap.getD (s.current / wordBits) 0) (s.current % wordBits) = 1 + countFrom (c.bitmap.getD (s.current / wordBits) 0) (s.current % wordBits + 1) := by
              rw [hcstep, if_pos hbit]
            have hjlt : (c.offsets.getD (s.current / wordBits) default).jumps < c.jumps.length := by
              rw [hm] at hcpos
              omega
            have hv := getElem?_eq_some_getD c.jumps (c.offsets.getD (s.current / wordBits) default).jumps 0 hjlt
            have hvb : c.jumps.getD (c.offsets.getD (s.current / wordBits) default).jumps 0 ≤ buf.length :=
              hjv _ (getD_mem _ _ _ hjlt)
            have hnext := nextLine_window_set c buf s _ _ _ hcur hw ho hm hbit hv
            have hline := emitLine_eq_line buf s _ ((c.offsets.getD (s.current / wordBits) default).jumps + 1) hvb
            simp only [decodeSteps, hnext, hline]
            have hinv1 : DecInv c buf { total := s.total, current := s.current + 1, byte := c.jumps.getD (c.offsets.getD (s.current / wordBits) default).jumps 0 + lineLen buf (c.jumps.getD (c.offsets.getD (s.current / wordBits) default).jumps 0), jump := (c.offsets.getD (s.current / wordBits) default).jumps + 1 } := by
              constructor
              · have := lineLen_le buf (c.jumps.getD (c.offsets.getD (s.current / wordBits) default).jumps 0)
                dsimp only
                omega
              · intro _ hm1 _
                dsimp only at hm1 ⊢
                obtain ⟨hd1, hd2⟩ := hdiv1 hm1
                rw [hd1, hd2, hm]
                rw [hm] at hcpos
                omega
            simpa using ih { total := s.total, current := s.current + 1, byte := c.jumps.getD (c.offsets.getD (s.current / wordBits) default).jumps 0 + lineLen buf (c.jumps.getD (c.offsets.getD (s.current / wordBits) default).jumps 0), jump := (c.offsets.getD (s.current / wordBits) default).jumps + 1 } (Or.inr htot) hinv1
          · -- ordinary line at window start
            have hob : (c.offsets.getD (s.current / wordBits) default).bytes ≤ buf.length :=
              hov _ (getD_mem _ _ _ hno)
            have hceq : countFrom (c.bitmap.getD (s.current / wordBits) 0) (s.current % wordBits) = countFrom (c.bitmap.getD (s.current / wordBits) 0) (s.current % wordBits + 1) := by
              rw [hcstep, if_neg hbit]
              simp
            have hnext := nextLine_window_clear c buf s _ _ hcur hw ho hm (by simpa using hbit)
            have hline := emitLine_eq_line buf s _ (c.offsets.getD (s.current / wordBits) default).jumps hob
            simp only [decodeSteps, hnext, hline]
            have hinv1 : DecInv c buf { total := s.total, current := s.current + 1, byte := (c.offsets.getD (s.current / wordBits) default).bytes + lineLen buf (c.offsets.getD (s.current / wordBits) default).bytes, jump := (c.offsets.getD (s.current / wordBits) default).jumps } := by
              constructor
              · have := lineLen_le buf (c.offsets.getD (s.current / wordBits) default).bytes
                dsimp only
                omega
              · intro _ hm1 _
                dsimp only at hm1 ⊢
                obtain ⟨hd1, hd2⟩ := hdiv1 hm1
                rw [hd1, hd2, hm]
                rw [hm] at hceq
                omega
            simpa using ih { total := s.total, current := s.current + 1, byte := (c.offsets.getD (s.current / wordBits) default).bytes + lineLen buf (c.offsets.getD (s.current / wordBits) default).bytes, jump := (c.offsets.getD (s.current / wordBits) default).jumps } (Or.inr htot) hinv1
        · -- mid-window line: the invariant bounds the cursor
          have hmid := hinv.2 hb hm hcur
          by_cases hbit : (c.bitmap.getD (s.current / wordBits) 0) &&& (1 <<< (s.current % wordBits)) ≠ 0
          · have hcpos : countFrom (c.bitmap.getD (s.current / wordBits) 0) (s.current % wordBits) = 1 + countFrom (c.bitmap.getD (s.current / wordBits) 0) (s.current % wordBits + 1) := by
              rw [hcstep, if_pos hbit]
            have hjlt : s.jump < c.jumps.length := by omega
            have hv := getElem?_eq_some_getD c.jumps s.jump 0 hjlt
            have hvb : c.jumps.getD s.jump 0 ≤ buf.length := hjv _ (getD_mem _ _ _ hjlt)
            have hnext := nextLine_mid_set c buf s _ _ hcur hw hm hbit hv
            have hline := emitLine_eq_line buf s _ (s.jump + 1) hvb
            simp only [decodeSteps, hnext, hline]
            have hinv1 : DecInv c buf { total := s.total, current := s.current + 1, byte := c.jumps.getD s.jump 0 + lineLen buf (c.jumps.getD s.jump 0), jump := s.jump + 1 } := by
              constructor
              · have := lineLen_le buf (c.jumps.getD s.jump 0)
                dsimp only
                omega
              · intro _ hm1 _
                dsimp only at hm1 ⊢
                obtain ⟨hd1, hd2⟩ := hdiv1 hm1
                rw [hd1, hd2]
                omega
            simpa using ih { total := s.total, current := s.current + 1, byte := c.jumps.getD s.jump 0 + lineLen buf (c.jumps.getD s.jump 0), jump := s.jump + 1 } (Or.inr htot) hinv1
          · have hceq : countFrom (c.bitmap.getD (s.current / wordBits) 0) (s.current % wordBits) = countFrom (c.bitmap.getD (s.current / wordBits) 0) (s.current % wordBits + 1) := by
              rw [hcstep, if_neg hbit]
              simp
            have hnext := nextLine_mid_clear c buf s _ hcur hw hm (by simpa using hbit)
            have hline := emitLine_eq_line buf s s.byte s.jump hinv.1
            simp only [decodeSteps, hnext, hline]
            have hinv1 : DecInv c buf { total := s.total, current := s.current + 1, byte := s.byte + lineLen buf s.byte, jump := s.jump } := by
              constructor
              · have := lineLen_le buf s.byte
                have := hinv.1
                dsimp only
                omega
              · intro _ hm1 _
                dsimp only at hm1 ⊢
                obtain ⟨hd1, hd2⟩ := hdiv1 hm1
                rw [hd1, hd2]
                omega
            simpa using ih { total := s.total, current := s.current + 1, byte := s.byte + lineLen buf s.byte, jump := s.jump } (Or.inr htot) hinv1

/-- C9: for every block satisfying the data-model invariant (the bitmap
covers the declared line count, offsets has one entry per bitmap word,
every window's jump budget stays inside the jumps array, and every jump
target and window reset offset stays inside the materialized buffer),
every call of the line decoder's next is total: no indexing into the
bitmap, offsets, jumps or buffer is out of bounds, so no run of the
decoder ever panics. -/
theorem blockLines_no_panic (b : SourceBlock) (buf : List Nat)
    (hbm : b.chronology.bitmap = [] ∨
      b.stat.lines_valid + b.stat.lines_invalid ≤ wordBits * b.chronology.bitmap.length)
    (hoff : b.chronology.offsets.length = b.chronology.bitmap.length)
    (hjb : ∀ n, n < b.chronology.bitmap.length →
      (b.chronology.offsets.getD n default).jumps + countFrom (b.chronology.bitmap.getD n 0) 0 ≤
        b.chronology.jumps.length)
    (hjv : ∀ v ∈ b.chronology.jumps, v ≤ buf.length)
    (hov : ∀ o ∈ b.chronology.offsets, o.bytes ≤ buf.length) :
    ∀ fuel, (decodeSteps b.chronology buf fuel (initState b)).isSome := by
  intro fuel
  apply decodeSteps_no_panic b.chronology buf hoff hjb hjv hov fuel (initState b)
  · rcases hbm with h | h
    · exact Or.inl h
    · exact Or.inr (by simpa [initState] using h)
  · constructor
    · simp [initState]
    · intro _ hm1 _
      simp [initState, wordBits] at hm1

def sampleJumpBlock : SourceBlock :=
  { offset := 0, size := 6, stat := { lines_valid := 2, lines_invalid := 0, ts_min_max := (0, 0) },
    chronology := { bitmap := [2], offsets := [{ bytes := 0, jumps := 0 }], jumps := [3] } }

/-- Witness for C9 at a concrete block with one exception line. -/
theorem blockLines_no_panic_witness :
    (decodeSteps sampleJumpBlock.chronology cexBuf 2 (initState sampleJumpBlock)).isSome :=
  blockLines_no_panic sampleJumpBlock cexBuf (by decide) (by decide) (by decide)
    (by decide) (by decide) 2

/-- Lexicographic comparison of ts_min_max keys: the derived order on the
(minimum, maximum) timestamp pair used by sort_by_key in Blocks::sorted. -/
def tsLe (a b : Nat × Nat) : Bool :=
  decide (a.1 < b.1) || (decide (a.1 = b.1) && decide (a.2 ≤ b.2))

/-- Strict lexicographic order on ts_min_max keys. -/
def tsLt (a b : Nat × Nat) : Prop :=
  a.1 < b.1 ∨ (a.1 = b.1 ∧ a.2 < b.2)

/-- The sort key of block position i: blocks[i].stat.ts_min_max. -/
def blockKey (blocks : List SourceBlock) (i : Nat) : Nat × Nat :=
  (blocks.getD i default).stat.ts_min_max

/-- Blocks::sorted from src/input.rs: collect the block positions and
stably sort them by the ts_min_max key. -/
def sortedIndexes (blocks : List SourceBlock) (indexes : List Nat) : List Nat :=
  indexes.mergeSort (fun i j => tsLe (blockKey blocks i) (blockKey blocks j))

theorem tsLe_refl (a : Nat × Nat) : tsLe a a = true := by
  simp [tsLe]

theorem tsLe_trans (a b c : Nat × Nat) (h1 : tsLe a b = true) (h2 : tsLe b c = true) :
    tsLe a c = true := by
  simp [tsLe] at h1 h2 ⊢
  omega

theorem tsLe_total (a b : Nat × Nat) : (tsLe a b || tsLe b a) = true := by
  simp [tsLe]
  omega

theorem tsLe_not_lt (a b : Nat × Nat) (h : tsLe a b = true) : ¬ tsLt b a := by
  simp [tsLe] at h
  simp [tsLt]
  omega

/-- C6: Blocks::sorted materializes the block positions and stably sorts
them by ascending ts_min_max: the result is a permutation of the input
positions, pairwise ordered by the lexicographic key comparison, a block
with a strictly smaller key never appears after one with a larger key, and
positions with equal keys keep their original relative order. -/
theorem blocks_sorted_spec (blocks : List SourceBlock) (indexes : List Nat) :
    (sortedIndexes blocks indexes).Perm indexes ∧
    List.Pairwise (fun i j => tsLe (blockKey blocks i) (blockKey blocks j) = true)
      (sortedIndexes blocks indexes) ∧
    (∀ (i j : Fin (sortedIndexes blocks indexes).length), i < j →
      ¬ tsLt (blockKey blocks ((sortedIndexes blocks indexes).get j))
        (blockKey blocks ((sortedIndexes blocks indexes).get i))) ∧
    (∀ k, (sortedIndexes blocks indexes).filter (fun i => decide (blockKey blocks i = k)) =
      indexes.filter (fun i => decide (blockKey blocks i = k))) := by
  have htrans : ∀ (a b c : Nat),
      tsLe (blockKey blocks a) (blockKey blocks b) = true →
      tsLe (blockKey blocks b) (blockKey blocks c) = true →
      tsLe (blockKey blocks a) (blockKey blocks c) = true :=
    fun a b c h1 h2 => tsLe_trans _ _ _ h1 h2
  have htotal : ∀ (a b : Nat),
      (tsLe (blockKey blocks a) (blockKey blocks b) ||
        tsLe (blockKey blocks b) (blockKey blocks a)) = true :=
    fun a b => tsLe_total _ _
  have hpair : List.Pairwise (fun i j => tsLe (blockKey blocks i) (blockKey blocks j) = true)
      (sortedIndexes blocks indexes) :=
    List.sorted_mergeSort htrans htotal indexes
  refine ⟨List.mergeSort_perm indexes _, hpair, ?_, ?_⟩
  · intro i j hij
    have := List.pairwise_iff_get.mp hpair i j hij
    exact tsLe_not_lt _ _ this
  · intro k
    have hfs : (indexes.filter (fun i => decide (blockKey blocks i = k))).Sublist
        (sortedIndexes blocks indexes) := by
      apply List.sublist_mergeSort htrans htotal
      · apply List.pairwise_of_forall_mem_list
        intro a ha b hb
        have hka := List.of_mem_filter ha
        have hkb := List.of_mem_filter hb
        simp at hka hkb
        rw [hka, hkb]
        exact tsLe_refl _
      · exact List.filter_sublist indexes
    have hsub2 : (indexes.filter (fun i => decide (blockKey blocks i = k))).Sublist
        ((sortedIndexes blocks indexes).filter (fun i => decide (blockKey blocks i = k))) := by
      have := List.Sublist.filter (fun i => decide (blockKey blocks i = k)) hfs
      rwa [List.filter_filter, show ∀ l : List Nat, (l.filter fun i =>
        decide (blockKey blocks i = k) && decide (blockKey blocks i = k)) =
        (l.filter fun i => decide (blockKey blocks i = k)) from fun l => by
          apply List.filter_congr; intro x _; cases hd : decide (blockKey blocks x = k) <;> simp [hd]] at this
    have hlen : ((sortedIndexes blocks indexes).filter (fun i => decide (blockKey blocks i = k))).length =
        (indexes.filter (fun i => decide (blockKey blocks i = k))).length :=
      ((List.mergeSort_perm indexes _).filter _).length_eq
    exact ((hsub2.eq_of_length (by omega)).symm)

def sampleBlocks : List SourceBlock :=
  [{ offset := 0, size := 4, stat := { lines_valid := 2, lines_invalid := 0, ts_min_max := (5, 7) },
     chronology := { bitmap := [], offsets := [], jumps := [] } },
   { offset := 4, size := 2, stat := { lines_valid := 1, lines_invalid := 0, ts_min_max := (1, 2) },
     chronology := { bitmap := [], offsets := [], jumps := [] } }]

/-- Witness for C6 at a concrete two-block index. -/
theorem blocks_sorted_spec_witness :
    (sortedIndexes sampleBlocks [0, 1]).Perm [0, 1] ∧
    List.Pairwise (fun i j => tsLe (blockKey sampleBlocks i) (blockKey sampleBlocks j) = true)
      (sortedIndexes sampleBlocks [0, 1]) ∧
    (∀ (i j : Fin (sortedIndexes sampleBlocks [0, 1]).length), i < j →
      ¬ tsLt (blockKey sampleBlocks ((sortedIndexes sampleBlocks [0, 1]).get j))
        (blockKey sampleBlocks ((sortedIndexes sampleBlocks [0, 1]).get i))) ∧
    (∀ k, (sortedIndexes sampleBlocks [0, 1]).filter (fun i => decide (blockKey sampleBlocks i = k)) =
      [0, 1].filter (fun i => decide (blockKey sampleBlocks i = k))) :=
  blocks_sorted_spec sampleBlocks [0, 1]


/-- A file path as consumed by IndexedInput::open_stream: only its display
name and the result of the standard library's extension() are relevant
(extension computation itself is outside the sources). -/
structure PathM where
  name : String
  ext : Option String
deriving Repr, DecidableEq

/-- The error kinds of src/error.rs reachable from the indexed-stream
builder: the unsupported-format rejection and propagated indexer errors. -/
inductive ErrorM where
  | unsupportedFormatForIndexing (path : PathM) (format : String)
  | indexerError (msg : String)
deriving Repr, DecidableEq

/-- The block index produced by the external indexer (Index::source().blocks
as consumed by src/input.rs). -/
structure IndexM where
  blocks : List SourceBlock
deriving Repr, DecidableEq

/-- A pre-opened byte stream together with the outcome of the runtime seek
probe stream.seek(SeekFrom::Current(0)). -/
structure StreamModel where
  bytes : List Nat
  seekable : Bool
deriving Repr, DecidableEq

/-- InputReference from src/input.rs: standard input or a file path. -/
inductive InputReferenceM where
  | stdin
  | file (path : PathM)
deriving Repr, DecidableEq

/-- The backing store of an IndexedInput. Modelled from the spec: the
sequential strategy backs the stream with the replay buffer accumulated by
the tee reader (crate modules tee and replay, outside the sources), while
the direct strategy wraps the already-open handle behind the exclusive
lock. -/
inductive BackingM where
  | replay (bytes : List Nat)
  | lockedFile (stream : StreamModel)
deriving Repr, DecidableEq

/-- IndexedInput: reference, seekable backing stream and block index. -/
structure IndexedInputM where
  reference : InputReferenceM
  backing : BackingM
  index : IndexM
deriving Repr, DecidableEq

/-- The external indexer contract: Indexer::index for a path and
Indexer::index_from_stream for a forward-only stream. Modelled from the
spec: index_from_stream consumes the stream in a single pass and the
accumulated bytes are exactly the bytes consumed. -/
structure IndexerM where
  indexPath : PathM → Except ErrorM IndexM
  indexStream : List Nat → Except ErrorM IndexM

/-- Outcome of building an IndexedInput, together with how many times each
external indexer entry point was invoked. -/
structure BuildResult where
  result : Except ErrorM IndexedInputM
  pathCalls : Nat
  streamCalls : Nat
deriving Repr

/-- IndexedInput::open_sequential: tee the stream through the streaming
indexer, accumulate all consumed bytes, and back the input with the
in-memory replay buffer (one read pass, no second read of the source). -/
def open_sequential (ref : InputReferenceM) (bytes : List Nat) (indexer : IndexerM) : BuildResult :=
  match indexer.indexStream bytes with
  | .error e => { result := .error e, pathCalls := 0, streamCalls := 1 }
  | .ok idx => { result := .ok { reference := ref, backing := .replay bytes, index := idx },
                 pathCalls := 0, streamCalls := 1 }

/-- IndexedInput::open_stream: reject gzip paths before touching the
indexer, fall back to the sequential strategy when the seek probe fails,
otherwise delegate to the path indexer and wrap the already-open handle
behind the exclusive lock. -/
def open_stream (path : PathM) (stream : StreamModel) (indexer : IndexerM) : BuildResult :=
  if path.ext = some "gz" then
    { result := .error (.unsupportedFormatForIndexing path "gzip"), pathCalls := 0, streamCalls := 0 }
  else if stream.seekable = false then
    open_sequential (.file path) stream.bytes indexer
  else
    match indexer.indexPath path with
    | .error e => { result := .error e, pathCalls := 1, streamCalls := 0 }
    | .ok idx => { result := .ok { reference := .file path, backing := .lockedFile stream, index := idx },
                   pathCalls := 1, streamCalls := 0 }

/-- InputHolder::index: standard input is always indexed sequentially from
the stdin stream; a file holder uses its pre-opened stream, or re-opens the
path (InputReference::hold) when none is present. -/
def holderIndex (ref : InputReferenceM) (stream : Option StreamModel)
    (fileOpen : PathM → Except ErrorM StreamModel) (stdinBytes : List Nat)
    (indexer : IndexerM) : BuildResult :=
  match ref with
  | .stdin => open_sequential .stdin stdinBytes indexer
  | .file path =>
    match stream with
    | some s => open_stream path s indexer
    | none =>
      match fileOpen path with
      | .error e => { result := .error e, pathCalls := 0, streamCalls := 0 }
      | .ok s => open_stream path s indexer

/-- C4: for every path whose extension is gz, every pre-opened stream and
every indexer, indexed opening fails immediately with the
unsupported-format-for-indexing error carrying that path and the format
string gzip, with zero calls to either external indexer entry point. -/
theorem open_stream_gz_rejected (path : PathM) (stream : StreamModel) (indexer : IndexerM)
    (hext : path.ext = some "gz") :
    open_stream path stream indexer =
      { result := .error (.unsupportedFormatForIndexing path "gzip"),
        pathCalls := 0, streamCalls := 0 } := by
  unfold open_stream
  rw [if_pos hext]

def gzPath : PathM := { name := "access.log.gz", ext := some "gz" }

def trivIndexer : IndexerM :=
  { indexPath := fun _ => .ok { blocks := [] }, indexStream := fun _ => .ok { blocks := [] } }

/-- Witness for C4 at a concrete gz path. -/
theorem open_stream_gz_rejected_witness :
    open_stream gzPath { bytes := [1, 2], seekable := true } trivIndexer =
      { result := .error (.unsupportedFormatForIndexing gzPath "gzip"),
        pathCalls := 0, streamCalls := 0 } :=
  open_stream_gz_rejected gzPath { bytes := [1, 2], seekable := true } trivIndexer (by decide)

theorem open_sequential_calls (ref : InputReferenceM) (bytes : List Nat) (indexer : IndexerM) :
    (open_sequential ref bytes indexer).pathCalls = 0 ∧
      (open_sequential ref bytes indexer).streamCalls = 1 := by
  unfold open_sequential
  cases indexer.indexStream bytes <;> simp

/-- C5: the builder picks exactly one of two strategies.  Standard input
and any file stream failing the runtime seek probe are indexed
sequentially: the streaming indexer entry point is called exactly once, the
path entry point never, and on success the backing store is the in-memory
replay of exactly the bytes consumed from the source (no second read).  A
file stream passing the seek probe is delegated to the path indexer exactly
once, the streaming entry point is never called, and the already-open
handle is wrapped behind the exclusive lock as the backing store. -/
theorem indexed_builder_strategies (path : PathM) (s : StreamModel)
    (str : Option StreamModel) (fileOpen : PathM → Except ErrorM StreamModel)
    (stdinBytes : List Nat) (indexer : IndexerM) :
    (holderIndex .stdin str fileOpen stdinBytes indexer =
        open_sequential .stdin stdinBytes indexer ∧
      (holderIndex .stdin str fileOpen stdinBytes indexer).pathCalls = 0 ∧
      (holderIndex .stdin str fileOpen stdinBytes indexer).streamCalls = 1 ∧
      (∀ idx, indexer.indexStream stdinBytes = .ok idx →
        holderIndex .stdin str fileOpen stdinBytes indexer =
          { result := .ok { reference := .stdin, backing := .replay stdinBytes, index := idx },
            pathCalls := 0, streamCalls := 1 })) ∧
    (path.ext ≠ some "gz" → s.seekable = false →
      open_stream path s indexer = open_sequential (.file path) s.bytes indexer ∧
      (open_stream path s indexer).pathCalls = 0 ∧
      (open_stream path s indexer).streamCalls = 1 ∧
      (∀ idx, indexer.indexStream s.bytes = .ok idx →
        open_stream path s indexer =
          { result := .ok { reference := .file path, backing := .replay s.bytes, index := idx },
            pathCalls := 0, streamCalls := 1 })) ∧
    (path.ext ≠ some "gz" → s.seekable = true →
      (open_stream path s indexer).pathCalls = 1 ∧
      (open_stream path s indexer).streamCalls = 0 ∧
      (∀ idx, indexer.indexPath path = .ok idx →
        open_stream path s indexer =
          { result := .ok { reference := .file path, backing := .lockedFile s, index := idx },
            pathCalls := 1, streamCalls := 0 })) := by
  refine ⟨⟨rfl, ?_, ?_, ?_⟩, ?_, ?_⟩
  · exact (open_sequential_calls .stdin stdinBytes indexer).1
  · exact (open_sequential_calls .stdin stdinBytes indexer).2
  · intro idx hidx
    show open_sequential .stdin stdinBytes indexer = _
    unfold open_sequential
    rw [hidx]
  · intro hext hseek
    have heq : open_stream path s indexer = open_sequential (.file path) s.bytes indexer := by
      unfold open_stream
      rw [if_neg hext, if_pos hseek]
    refine ⟨heq, ?_, ?_, ?_⟩
    · rw [heq]; exact (open_sequential_calls _ _ indexer).1
    · rw [heq]; exact (open_sequential_calls _ _ indexer).2
    · intro idx hidx
      rw [heq]
      unfold open_sequential
      rw [hidx]
  · intro hext hseek
    have hseek' : ¬ s.seekable = false := by simp [hseek]
    refine ⟨?_, ?_, ?_⟩
    · unfold open_stream
      rw [if_neg hext, if_neg hseek']
      cases indexer.indexPath path <;> simp
    · unfold open_stream
      rw [if_neg hext, if_neg hseek']
      cases indexer.indexPath path <;> simp
    · intro idx hidx
      unfold open_stream
      rw [if_neg hext, if_neg hseek', hidx]

def plainPath : PathM := { name := "access.log", ext := some "log" }

/-- Witness for C5: concrete direct-strategy run on a seekable stream. -/
theorem indexed_builder_strategies_witness :
    open_stream plainPath { bytes := [9], seekable := true } trivIndexer =
      { result := .ok { reference := .file plainPath, backing := .lockedFile { bytes := [9], seekable := true }, index := { blocks := [] } },
        pathCalls := 1, streamCalls := 0 } :=
  ((indexed_builder_strategies plainPath { bytes := [9], seekable := true } none
      (fun _ => .error (.indexerError "unused")) [] trivIndexer).2.2
    (by decide) (by decide)).2.2 { blocks := [] } rfl

/-- Vec::resize(n, 0): truncate or zero-pad the buffer to exactly n
elements. -/
def vecResize (l : List Nat) (n : Nat) : List Nat :=
  l.take n ++ List.replicate (n - l.length) 0

/-- Modelled from the spec: iox::ReadFill (crate module iox, outside the
sources) reads from the stream at the given position until the destination
buffer is completely filled, failing on a short read; no partially filled
buffer is returned. -/
def readFill (content : List Nat) (pos : Nat) (buf : List Nat) : Except ErrorM (List Nat) :=
  if pos + buf.length ≤ content.length then .ok ((content.drop pos).take buf.length)
  else .error (.indexerError "short read")

/-- BlockLines::new from src/input.rs: check a buffer out of the pool when
one is attached (else start from an empty fresh buffer), resize it to the
block's exact size, seek the shared stream (under its exclusive lock,
modelled as atomic access to the full content) to the block's offset, and
read exactly size bytes; the total line count is lines_valid +
lines_invalid. -/
def blockLinesNew (content : List Nat) (b : SourceBlock) (pool : Option (List Nat)) :
    Except ErrorM (List Nat × Nat) :=
  match readFill content b.offset (vecResize (match pool with | some p => p | none => []) b.size) with
  | .error e => .error e
  | .ok buf => .ok (buf, b.stat.lines_valid + b.stat.lines_invalid)

theorem vecResize_length (l : List Nat) (n : Nat) : (vecResize l n).length = n := by
  simp [vecResize]
  omega

/-- C7: materializing a block resizes the acquired buffer (pooled or fresh)
to exactly the block's size and reads exactly size bytes from the stream at
the block's offset; the delivered buffer is exactly the block's byte range
regardless of the pool's previous content, and a short read is a hard
error with no buffer delivered. -/
theorem blockLinesNew_spec (content : List Nat) (b : SourceBlock) (pool : Option (List Nat)) :
    (b.offset + b.size ≤ content.length →
      blockLinesNew content b pool =
        .ok ((content.drop b.offset).take b.size, b.stat.lines_valid + b.stat.lines_invalid) ∧
      ((content.drop b.offset).take b.size).length = b.size) ∧
    (content.length < b.offset + b.size →
      blockLinesNew content b pool = .error (.indexerError "short read")) ∧
    blockLinesNew content b pool = blockLinesNew content b none := by
  have hlen := vecResize_length (match pool with | some p => p | none => []) b.size
  constructor
  · intro hfit
    unfold blockLinesNew readFill
    rw [hlen]
    rw [if_pos (by omega)]
    refine ⟨rfl, by simp; omega⟩
  · constructor
    · intro hshort
      unfold blockLinesNew readFill
      rw [hlen]
      rw [if_neg (by omega)]
    · unfold blockLinesNew readFill
      rw [hlen, vecResize_length]

/-- Witness for C7: materializing block 0 of a six-byte stream out of a
dirty pooled buffer delivers exactly the block's bytes. -/
theorem blockLinesNew_spec_witness :
    blockLinesNew [97, 98, 10, 99, 100, 10] cexBlock (some [7, 7, 7, 7, 7, 7, 7, 7]) =
        .ok ((([97, 98, 10, 99, 100, 10] : List Nat).drop cexBlock.offset).take cexBlock.size,
          cexBlock.stat.lines_valid + cexBlock.stat.lines_invalid) ∧
      ((([97, 98, 10, 99, 100, 10] : List Nat).drop cexBlock.offset).take cexBlock.size).length =
        cexBlock.size :=
  (blockLinesNew_spec [97, 98, 10, 99, 100, 10] cexBlock (some [7, 7, 7, 7, 7, 7, 7, 7])).1
    (by decide)

/-- One opened input of the concatenating reader: its display identity, the
bytes still to deliver, and an optional read error surfaced once the bytes
are exhausted. -/
structure InputM where
  desc : String
  data : List Nat
  err : Option String
deriving Repr, DecidableEq

/-- The state of ConcatReader: the current input, if any, and the remaining
stream of open results. -/
structure ConcatState where
  item : Option InputM
  sources : List (Except String InputM)

/-- One Read::read call on an input stream with a destination buffer of the
given capacity: deliver up to cap buffered bytes; once the data is
exhausted surface the pending error annotated with the input's display
identity (the map_err closure in ConcatReader::read), or report
end-of-stream. -/
def inputRead (inp : InputM) (cap : Nat) : Except String (List Nat × InputM) :=
  if inp.data = [] then
    match inp.err with
    | some e => .error ("failed to read " ++ inp.desc ++ ": " ++ e)
    | none => .ok ([], inp)
  else
    .ok (inp.data.take cap, { inp with data := inp.data.drop cap })

/-- The loop of ConcatReader::read entered with no current item: pull the
next open result; none means clean end-of-stream, an open error propagates
unchanged, an opened input is read and kept as the current item when it
delivers bytes, else discarded and the loop continues. -/
def concatReadAux : List (Except String InputM) → Nat → Except String (List Nat × ConcatState)
  | [], _ => .ok ([], { item := none, sources := [] })
  | .error e :: _, _ => .error e
  | .ok inp :: rest, cap =>
    match inputRead inp cap with
    | .error e => .error e
    | .ok (bytes, inp1) =>
      if bytes.length ≠ 0 then .ok (bytes, { item := some inp1, sources := rest })
      else concatReadAux rest cap

/-- ConcatReader::read from src/input.rs: read from the current item until
it reports zero bytes, then advance through the remaining sources. -/
def concatRead (item : Option InputM) (sources : List (Except String InputM)) (cap : Nat) :
    Except String (List Nat × ConcatState) :=
  match item with
  | none => concatReadAux sources cap
  | some inp =>
    match inputRead inp cap with
    | .error e => .error e
    | .ok (bytes, inp1) =>
      if bytes.length ≠ 0 then .ok (bytes, { item := some inp1, sources := sources })
      else concatReadAux sources cap

theorem concatReadAux_empty_eof : ∀ (sources : List (Except String InputM)) cap bytes s1,
    concatReadAux sources cap = .ok (bytes, s1) → bytes = [] →
    s1.item = none ∧ s1.sources = [] := by
  intro sources
  induction sources with
  | nil =>
    intro cap bytes s1 h hb
    simp [concatReadAux] at h
    obtain ⟨rfl, rfl⟩ := h
    exact ⟨rfl, rfl⟩
  | cons r rest ih =>
    intro cap bytes s1 h hb
    cases r with
    | error e => simp [concatReadAux] at h
    | ok inp =>
      simp only [concatReadAux] at h
      cases hr : inputRead inp cap with
      | error e => rw [hr] at h; simp at h
      | ok p =>
        obtain ⟨bytes1, inp1⟩ := p
        rw [hr] at h
        dsimp only at h
        by_cases hn : bytes1.length ≠ 0
        · rw [if_pos hn] at h
          simp only [Except.ok.injEq, Prod.mk.injEq] at h
          obtain ⟨h1, h2⟩ := h
          subst hb
          rw [h1] at hn
          simp at hn
        · rw [if_neg hn] at h
          exact ih cap bytes s1 h hb


/-- C8: the concatenating reader reads from the current source until it is
exhausted and only then advances to the next one; a pending read error of
the current source is surfaced annotated with that source's display
identity, while open errors from the underlying sequence propagate
unchanged; and a read returns zero bytes (clean end-of-stream) only once
the sequence of sources is fully exhausted. -/
theorem concatReader_read_spec :
    (∀ (inp : InputM) sources cap, inp.data ≠ [] → 0 < cap →
      concatRead (some inp) sources cap =
        .ok (inp.data.take cap,
          { item := some { inp with data := inp.data.drop cap }, sources := sources })) ∧
    (∀ (inp : InputM) sources cap e, inp.data = [] → inp.err = some e →
      concatRead (some inp) sources cap =
        .error ("failed to read " ++ inp.desc ++ ": " ++ e)) ∧
    (∀ (inp : InputM) sources cap, inp.data = [] → inp.err = none →
      concatRead (some inp) sources cap = concatRead none sources cap) ∧
    (∀ cap, concatRead none [] cap = .ok ([], { item := none, sources := [] })) ∧
    (∀ e rest cap, concatRead none (.error e :: rest) cap = .error e) ∧
    (∀ (inp : InputM) rest cap, concatRead none (.ok inp :: rest) cap =
      concatRead (some inp) rest cap) ∧
    (∀ item sources cap bytes s1, concatRead item sources cap = .ok (bytes, s1) → bytes = [] →
      s1.item = none ∧ s1.sources = []) := by
  refine ⟨?_, ?_, ?_, ?_, ?_, ?_, ?_⟩
  · intro inp sources cap hne hcap
    have hlen : 0 < inp.data.length := List.length_pos.mpr hne
    simp only [concatRead, inputRead, if_neg hne]
    rw [if_pos (by rw [List.length_take]; omega)]
  · intro inp sources cap e hdata herr
    simp only [concatRead, inputRead, if_pos hdata, herr]
  · intro inp sources cap hdata herr
    simp only [concatRead, inputRead, if_pos hdata, herr]
    simp
  · intro cap
    simp [concatRead, concatReadAux]
  · intro e rest cap
    simp [concatRead, concatReadAux]
  · intro inp rest cap
    simp only [concatRead, concatReadAux]
  · intro item sources cap bytes s1 h hb
    cases item with
    | none =>
      simp only [concatRead] at h
      exact concatReadAux_empty_eof sources cap bytes s1 h hb
    | some inp =>
      simp only [concatRead] at h
      cases hr : inputRead inp cap with
      | error e => rw [hr] at h; simp at h
      | ok p =>
        obtain ⟨bytes1, inp1⟩ := p
        rw [hr] at h
        dsimp only at h
        by_cases hn : bytes1.length ≠ 0
        · rw [if_pos hn] at h
          simp only [Except.ok.injEq, Prod.mk.injEq] at h
          obtain ⟨h1, h2⟩ := h
          subst hb
          rw [h1] at hn
          simp at hn
        · rw [if_neg hn] at h
          exact concatReadAux_empty_eof sources cap bytes s1 h hb

/-- Witness for C8: a one-byte read from a current source with buffered
data delivers its bytes without advancing to the next source. -/
theorem concatReader_read_spec_witness :
    concatRead (some { desc := "file A", data := [5, 6], err := none }) [] 1 =
      .ok ([5], { item := some { desc := "file A", data := [6], err := none }, sources := [] }) :=
  concatReader_read_spec.1 { desc := "file A", data := [5, 6], err := none } [] 1
    (by decide) (by decide)

theorem concatReadAux_zero (sources : List (Except String InputM))
    (hok : ∀ r ∈ sources, ∃ inp, r = .ok inp ∧ (inp.data = [] → inp.err = none)) :
    concatReadAux sources 0 = .ok ([], { item := none, sources := [] }) := by
  induction sources with
  | nil => simp [concatReadAux]
  | cons r rest ih =>
    obtain ⟨inp, rfl, hsafe⟩ := hok r (by simp)
    simp only [concatReadAux]
    have hrest : ∀ r ∈ rest, ∃ inp, r = .ok inp ∧ (inp.data = [] → inp.err = none) := by
      intro r hr
      exact hok r (by simp [hr])
    by_cases hd : inp.data = []
    · simp only [inputRead, if_pos hd, hsafe hd]
      simpa using ih hrest
    · simp only [inputRead, if_neg hd]
      simpa using ih hrest
  
theorem concatRead_zero_step (inp : InputM) (sources : List (Except String InputM))
    (hsafe : inp.data = [] → inp.err = none) :
    concatRead (some inp) sources 0 = concatReadAux sources 0 := by
  by_cases hd : inp.data = []
  · simp only [concatRead, inputRead, if_pos hd, hsafe hd]
    simp
  · simp only [concatRead, inputRead, if_neg hd]
    simp

theorem concatReadAux_zero_err (e : String) (rest : List (Except String InputM)) :
    ∀ (oks : List InputM), (∀ inp ∈ oks, inp.data = [] → inp.err = none) →
    concatReadAux (oks.map .ok ++ .error e :: rest) 0 = .error e := by
  intro oks
  induction oks with
  | nil => intro _; simp [concatReadAux]
  | cons inp oks ih =>
    intro hok
    simp only [List.map_cons, List.cons_append, concatReadAux]
    have hsafe := hok inp (by simp)
    by_cases hd : inp.data = []
    · simp only [inputRead, if_pos hd, hsafe hd]
      simpa using ih (fun i hi => hok i (by simp [hi]))
    · simp only [inputRead, if_neg hd]
      simpa using ih (fun i hi => hok i (by simp [hi]))

/-- C10: a read with a zero-length destination buffer treats every
source's zero-byte read as exhaustion: whatever unread bytes the current
and following sources still hold, they are all discarded (propagating any
open error met along the way), the call returns zero bytes, and subsequent
reads find no sources left, so those bytes are never delivered. -/
theorem concatReader_zero_cap :
    (∀ (item : Option InputM) sources,
      (∀ inp, item = some inp → (inp.data = [] → inp.err = none)) →
      (∀ r ∈ sources, ∃ inp, r = .ok inp ∧ (inp.data = [] → inp.err = none)) →
      concatRead item sources 0 = .ok ([], { item := none, sources := [] })) ∧
    (∀ cap, concatRead none [] cap = .ok ([], { item := none, sources := [] })) ∧
    (∀ (item : Option InputM) (oks : List InputM) e rest,
      (∀ inp, item = some inp → (inp.data = [] → inp.err = none)) →
      (∀ inp ∈ oks, inp.data = [] → inp.err = none) →
      concatRead item (oks.map .ok ++ .error e :: rest) 0 = .error e) := by
  refine ⟨?_, ?_, ?_⟩
  · intro item sources hitem hok
    cases item with
    | none => exact concatReadAux_zero sources hok
    | some inp =>
      rw [concatRead_zero_step inp sources (hitem inp rfl)]
      exact concatReadAux_zero sources hok
  · intro cap
    simp [concatRead, concatReadAux]
  · intro item oks e rest hitem hok
    cases item with
    | none => exact concatReadAux_zero_err e rest oks hok
    | some inp =>
      rw [concatRead_zero_step inp _ (hitem inp rfl)]
      exact concatReadAux_zero_err e rest oks hok

/-- Witness for C10: a zero-capacity read discards a current source and a
following source that both still hold unread bytes. -/
theorem concatReader_zero_cap_witness :
    concatRead (some { desc := "file A", data := [1, 2], err := none })
        [.ok { desc := "file B", data := [3], err := none }] 0 =
      .ok ([], { item := none, sources := [] }) :=
  concatReader_zero_cap.1 (some { desc := "file A", data := [1, 2], err := none })
    [.ok { desc := "file B", data := [3], err := none }]
    (by intro inp h hd; cases h; simp at hd)
    (by intro r hr; simp at hr; subst hr; exact ⟨_, rfl, fun hd => by simp at hd⟩)
